import Mathlib

/-!
Verification development for the document chunking and relevance-ranking engine
of the demystifyDocs repository.

The definitions below are a shallow embedding of the Python source:

* `src/server/utils/chunking.py`   — class `DocumentChunker`
* `src/RAG_Service/constitutional_retriever.py` — `get_relevant_constitutional_articles`

Strings are modelled as `List Char`; Python's implicit loops become fueled
structural recursions (so every definition is executable by the kernel), and
relevance scores are modelled in `ℚ` (the Python code computes them with IEEE
floats; none of the properties proved here depends on rounding).  The float
literal `0.7` in the word-boundary heuristic is modelled as the exact rational
`7/10`; the comparison `last_space > start + max_chunk_size * 0.7` becomes
`7 * max_chunk_size < 10 * i` for the relative index `i`.  All theorems proved
below are insensitive to the sub-ulp difference between the two readings.
-/

namespace DemystifyDocs

/-- Python whitespace test restricted to the ASCII whitespace characters
(space, tab, newline, carriage return, vertical tab, form feed); these are the
characters `str.strip()` and `\s` treat as whitespace on ASCII input. -/
def isWS (c : Char) : Bool :=
  c = ' ' || c = '\t' || c = '\n' || c = '\r' || c = Char.ofNat 11 || c = Char.ofNat 12

/-- Terminal sentence punctuation of the chunker: `.`, `!`, `?`. -/
def isTerm (c : Char) : Bool :=
  c = '.' || c = '!' || c = '?'

/-- All non-whitespace characters of a string, in order. -/
def filterNW (l : List Char) : List Char :=
  l.filter (fun c => !isWS c)

/-- Python `str.strip()`: drop leading and trailing whitespace. -/
def pstrip (l : List Char) : List Char :=
  ((l.dropWhile isWS).reverse.dropWhile isWS).reverse

/-- Python `str.lower()` on ASCII letters (all concrete inputs used here are ASCII). -/
def lowerChar (c : Char) : Char :=
  if 'A' ≤ c ∧ c ≤ 'Z' then Char.ofNat (c.toNat + 32) else c

/-- Lower-case a string character-wise. -/
def lowerS (l : List Char) : List Char := l.map lowerChar

/-- Index of the last `' '` in a list, if any: Python `s.rfind(' ')` restricted
to the searched slice (returns a relative index instead of `-1`/absolute). -/
def lastSpaceIdx : List Char → Option Nat
  | [] => none
  | c :: rest =>
    match lastSpaceIdx rest with
    | some i => some (i + 1)
    | none => if c = ' ' then some 0 else none

/-- Python substring test `needle in hay`. -/
def isSubstr (n : List Char) : List Char → Bool
  | [] => n.isEmpty
  | c :: t => n.isPrefixOf (c :: t) || isSubstr n t

/-- Python `str.split()` with no argument: split on whitespace runs, no empty
tokens.  The accumulator holds the current token reversed. -/
def splitWsAux : List Char → List Char → List (List Char)
  | [], acc => if acc.isEmpty then [] else [acc.reverse]
  | c :: rest, acc =>
    if isWS c then
      if acc.isEmpty then splitWsAux rest [] else acc.reverse :: splitWsAux rest []
    else splitWsAux rest (c :: acc)

/-- Python `str.split()` with no argument. -/
def splitWs (l : List Char) : List (List Char) := splitWsAux l []

/-- Python `str.split('.')`: split at every `'.'`, keeping empty pieces. -/
def splitDots : List Char → List (List Char)
  | [] => [[]]
  | c :: rest =>
    if c = '.' then [] :: splitDots rest
    else (splitDots rest).modifyHead (fun p => c :: p)

/-- Head-of-accumulator test used by the sentence splitter: is the most
recently consumed character terminal punctuation? -/
def headTerm : List Char → Bool
  | [] => false
  | c :: _ => isTerm c

/-- One-pass scan implementing `re.split(r'(?<=[.!?])\s+', text)` (chunking.py
line 44): a piece ends at a whitespace character whose immediate predecessor is
terminal punctuation; the whole (greedy) whitespace run is the delimiter.
`acc` holds the current piece reversed; the `Bool` is true while consuming a
delimiter's whitespace run. -/
def sentAux : List Char → List Char → Bool → List (List Char)
  | [], acc, _ => [acc.reverse]
  | c :: rest, _, true =>
    if isWS c then sentAux rest [] true else sentAux rest [c] false
  | c :: rest, acc, false =>
    if isWS c && headTerm acc then acc.reverse :: sentAux rest [] true
    else sentAux rest (c :: acc) false

/-- Sentence splitting of chunking.py line 44. -/
def sentSplit (l : List Char) : List (List Char) := sentAux l [] false

/-- Punctuation class stripped from words by `find_relevant_chunks`
(chunking.py lines 193 and 199): the characters of `'.,!?;:()[]\x7b\x7d'`. -/
def punctChars : List Char :=
  ['.', ',', '!', '?', ';', ':', '(', ')', '[', ']', Char.ofNat 123, Char.ofNat 125]

/-- Membership in `punctChars`. -/
def isPunctC (c : Char) : Bool := punctChars.any (fun d => c = d)

/-- Python `str.strip('.,!?;:()[]\x7b\x7d')`: drop those characters from both ends. -/
def stripPunct (l : List Char) : List Char :=
  ((l.dropWhile isPunctC).reverse.dropWhile isPunctC).reverse

/-- Configuration of `DocumentChunker.__init__` (chunking.py lines 7–21).
Sizes are naturals: the repository always constructs chunkers with
non-negative sizes (defaults 3000 and 200). -/
structure Chunker where
  max_chunk_size : Nat
  overlap_size : Nat
  preserve_sentences : Bool

/-- Loop body of `DocumentChunker._chunk_by_characters` (chunking.py lines
82–103), as a fueled recursion on the start offset.  One unit of fuel per
iteration; `none` models fuel exhaustion (the loop in the source terminates
because the start offset strictly increases, see `charAux_total`).
The chunk window is `text[start:e]` where `e` is `start + max_chunk_size`,
possibly pulled back to the last space of the window when that space lies
beyond 70% of the window (source line 93–95, only when this is not the final
window).  The next start offset is `max(start+1, e - overlap_size)` (line 101). -/
def charEnd (maxsz : Nat) (text : List Char) (start : Nat) : Nat :=
  if start + maxsz < text.length then
    match lastSpaceIdx ((text.drop start).take maxsz) with
    | some i => if 7 * maxsz < 10 * i then start + i else start + maxsz
    | none => start + maxsz
  else start + maxsz

/-- Recursive form of the `_chunk_by_characters` loop. -/
def charAux (maxsz ov : Nat) (text : List Char) : Nat → Nat → Option (List (List Char))
  | 0, start => if start < text.length then none else some []
  | fuel + 1, start =>
    if start < text.length then
      let e := charEnd maxsz text start
      let chunk := pstrip ((text.drop start).take (e - start))
      match charAux maxsz ov text fuel (max (start + 1) (e - ov)) with
      | none => none
      | some rest => some (if chunk.isEmpty then rest else chunk :: rest)
    else some []

/-- `DocumentChunker._chunk_by_characters` (chunking.py lines 82–103); fuel
`text.length` always suffices (`charAux_total`). -/
def chunkByCharacters (c : Chunker) (text : List Char) : List (List Char) :=
  (charAux c.max_chunk_size c.overlap_size text text.length 0).getD []

/-- Sentence-accumulation loop of `DocumentChunker._chunk_by_sentences`
(chunking.py lines 49–67): state is the emitted chunks plus the running
accumulator.  A sentence longer than `max_chunk_size` is broken by the
character fallback; all but its last fragment are emitted and the last
fragment seeds the accumulator (lines 62–65; line 65 guards the empty list,
so the `except` fallback of line 79 is unreachable and is not modelled). -/
def sentFold (c : Chunker) :
    List (List Char) → List (List Char) → List Char → List (List Char) × List Char
  | [], chunks, current => (chunks, current)
  | s :: rest, chunks, current =>
    let s' := pstrip s
    if s'.isEmpty then sentFold c rest chunks current
    else
      let potential := if current.isEmpty then s' else current ++ ' ' :: s'
      if potential.length ≤ c.max_chunk_size then sentFold c rest chunks potential
      else
        let chunks1 := if current.isEmpty then chunks else chunks ++ [pstrip current]
        if c.max_chunk_size < s'.length then
          sentFold c rest (chunks1 ++ (chunkByCharacters c s').dropLast)
            ((chunkByCharacters c s').getLastD [])
        else sentFold c rest chunks1 s'

/-- Overlap prefix taken from the previous chunk by `DocumentChunker._add_overlap`
(chunking.py lines 116–123): the trailing `overlap_size` characters, cut back
to just after their last space when one exists; the whole chunk when it is not
longer than `overlap_size`. -/
def overlapOf (c : Chunker) (prev : List Char) : List Char :=
  if c.overlap_size < prev.length then
    match lastSpaceIdx (prev.drop (prev.length - c.overlap_size)) with
    | some i => (prev.drop (prev.length - c.overlap_size)).drop (i + 1)
    | none => prev.drop (prev.length - c.overlap_size)
  else prev

/-- Body of the `_add_overlap` loop (chunking.py lines 112–127): each output
chunk after the first is the overlap of the previous original chunk, a single
space, then the current chunk. -/
def addOverlapAux (c : Chunker) : List Char → List (List Char) → List (List Char)
  | _, [] => []
  | prev, cur :: rest => (overlapOf c prev ++ ' ' :: cur) :: addOverlapAux c cur rest

/-- `DocumentChunker._add_overlap` (chunking.py lines 105–129). -/
def addOverlap (c : Chunker) (chunks : List (List Char)) : List (List Char) :=
  if chunks.length ≤ 1 ∨ c.overlap_size = 0 then chunks
  else
    match chunks with
    | [] => []
    | first :: rest => first :: addOverlapAux c first rest

/-- Chunks accumulated by `_chunk_by_sentences` before the overlap post-pass
(chunking.py lines 46–71): fold the sentences, then flush a non-blank
accumulator. -/
def preOverlapChunks (c : Chunker) (text : List Char) : List (List Char) :=
  if (pstrip (sentFold c (sentSplit text) [] []).2).isEmpty then
    (sentFold c (sentSplit text) [] []).1
  else (sentFold c (sentSplit text) [] []).1 ++ [pstrip (sentFold c (sentSplit text) [] []).2]

/-- `DocumentChunker._chunk_by_sentences` (chunking.py lines 41–80): the
accumulated chunks, with the overlap post-pass applied when
`overlap_size > 0` (lines 74–75). -/
def chunkBySentences (c : Chunker) (text : List Char) : List (List Char) :=
  if 0 < c.overlap_size then addOverlap c (preOverlapChunks c text)
  else preOverlapChunks c text

/-- `DocumentChunker.chunk_document` (chunking.py lines 23–39). -/
def chunkDocument (c : Chunker) (text : List Char) : List (List Char) :=
  if text.length ≤ c.max_chunk_size then [text]
  else if c.preserve_sentences then chunkBySentences c text
  else chunkByCharacters c text

/-- `DocumentChunker.recombine_chunks` (chunking.py lines 251–262): join the
stripped non-blank chunks with the separator. -/
def recombineChunks (chunks : List (List Char)) (sep : List Char) : List Char :=
  List.intercalate sep ((chunks.map pstrip).filter (fun x => !x.isEmpty))

/-- One pass of the merge loop of `DocumentChunker.chunk_for_summarization`
(chunking.py lines 157–167): greedily merge adjacent chunk pairs whose
space-joined concatenation fits `maxsz`. -/
def mergePass (maxsz : Nat) : List (List Char) → List (List Char)
  | a :: b :: rest =>
    if (a ++ ' ' :: b).length ≤ maxsz then (a ++ ' ' :: b) :: mergePass maxsz rest
    else a :: mergePass maxsz (b :: rest)
  | l => l

/-- The `while len(chunks) > target_chunks * 1.5` loop (chunking.py line 156),
fueled; `len > 1.5 * target` is the exact integer condition `3*target < 2*len`
(the float multiplication by 1.5 is exact).  `none` models divergence: a pass
that merges nothing leaves the list unchanged and the source loops forever. -/
def mergeLoop (maxsz target : Nat) : Nat → List (List Char) → Option (List (List Char))
  | 0, chunks => if 3 * target < 2 * chunks.length then none else some chunks
  | fuel + 1, chunks =>
    if 3 * target < 2 * chunks.length then mergeLoop maxsz target fuel (mergePass maxsz chunks)
    else some chunks

/-- `DocumentChunker.chunk_for_summarization` (chunking.py lines 131–173) with
explicit state passing for the mutation of `self.max_chunk_size`.  The fast
path (line 142) precedes the division by `target_chunks` (line 146), so
`target = 0` raises `ZeroDivisionError` before any state change: modelled as
`(none, c)`.  On normal completion the `finally` (line 173) restores
`max_chunk_size`; if the merge loop diverges (fuel runs out) the `finally`
never runs and the temporary value is still in place. -/
def chunkForSummarization (c : Chunker) (text : List Char) (target : Nat) (fuel : Nat) :
    Option (List (List Char)) × Chunker :=
  if text.length ≤ c.max_chunk_size then (some [text], c)
  else if target = 0 then (none, c)
  else
    match mergeLoop (max 1000 (min c.max_chunk_size (text.length / target))) target fuel
        (chunkDocument
          ⟨max 1000 (min c.max_chunk_size (text.length / target)), c.overlap_size,
            c.preserve_sentences⟩ text) with
    | some r => (some r, ⟨c.max_chunk_size, c.overlap_size, c.preserve_sentences⟩)
    | none =>
      (none,
        ⟨max 1000 (min c.max_chunk_size (text.length / target)), c.overlap_size,
          c.preserve_sentences⟩)

/-- Word normalisation of `find_relevant_chunks` (chunking.py lines 193, 199):
`word.lower().strip('.,!?;:()[]\x7b\x7d')`. -/
def normWord (w : List Char) : List Char := stripPunct (lowerS w)

/-- Query keyword set (chunking.py lines 193–195): words longer than 2
characters, normalised. -/
def queryWords (query : List Char) : Finset (List Char) :=
  (((splitWs query).filter (fun w => 2 < w.length)).map normWord).toFinset

/-- Chunk word set (chunking.py lines 199–200). -/
def chunkWords (chunk : List Char) : Finset (List Char) :=
  ((splitWs chunk).map normWord).toFinset

/-- Base relevance score (chunking.py lines 203–204). -/
def baseScore (query chunk : List Char) : ℚ :=
  ((queryWords query ∩ chunkWords chunk).card : ℚ) / (max (queryWords query).card 1 : ℚ)

/-- Period-delimited sub-phrases of the lowered query whose trimmed length
exceeds 5 (chunking.py line 212). -/
def phraseList (ql : List Char) : List (List Char) :=
  (splitDots ql).filter (fun p => 5 < (pstrip p).length)

/-- Full chunk score of `find_relevant_chunks` (chunking.py lines 203–213):
base score plus the phrase-match boost applied when the trimmed query is
longer than 10 characters. -/
def chunkScore (query chunk : List Char) : ℚ :=
  let s := baseScore query chunk
  if 10 < (pstrip query).length then
    if isSubstr (lowerS query) (lowerS chunk) then s + 1 / 2
    else if (phraseList (lowerS query)).any (fun p => isSubstr p (lowerS chunk)) then s + 1 / 5
    else s
  else s

/-- Ordering used by `chunk_scores.sort(key=lambda x: x[0], reverse=True)`
(chunking.py line 217): score descending.  Python's sort is stable, which is
`mergeSort` with this relation. -/
def scoreDesc (a b : ℚ × Nat × List Char) : Bool := decide (b.1 ≤ a.1)

/-- Ordering used by `sorted(chunk_scores[:max_chunks], key=lambda x: x[1])`
(chunking.py line 218): original index ascending. -/
def idxAsc (a b : ℚ × Nat × List Char) : Bool := decide (a.2.1 ≤ b.2.1)

/-- The `(score, i, chunk)` triples of chunking.py lines 197–215. -/
def scoredChunks (query : List Char) (chunks : List (List Char)) :
    List (ℚ × Nat × List Char) :=
  chunks.enum.map (fun p => (chunkScore query p.2, p.1, p.2))

/-- `DocumentChunker.find_relevant_chunks` (chunking.py lines 175–219):
score every chunk, sort by score descending (stable), keep the first
`maxChunks`, re-sort those by original index, return the chunk texts. -/
def findRelevantChunks (c : Chunker) (text query : List Char) (maxChunks : Nat) :
    List (List Char) :=
  if (chunkDocument c text).length ≤ maxChunks then chunkDocument c text
  else
    ((((scoredChunks query (chunkDocument c text)).mergeSort scoreDesc).take
      maxChunks).mergeSort idxAsc).map (fun x => x.2.2)

/-- The `replace('!', '.').replace('?', '.')` step of chunking.py line 238. -/
def replTerm (c : Char) : Char := if c = '!' ∨ c = '?' then '.' else c

/-- Number of non-blank pieces of a split (the `if s.strip()` filter of
chunking.py line 238, also the skip of lines 50–52). -/
def countNB (L : List (List Char)) : Nat :=
  (L.filter (fun s => !(pstrip s).isEmpty)).length

/-- Sentence estimate of `DocumentChunker.get_chunk_metadata` (chunking.py line
238): replace `!` and `?` by `.`, split at `.`, count the non-blank pieces. -/
def metaSentenceCount (chunk : List Char) : Nat :=
  countNB (splitDots (chunk.map replTerm))

/-- Number of non-blank sentence units under the section-4.1 boundary rule
(the splitter of chunking.py line 44, blanks skipped as in lines 50–52). -/
def splitterSentenceCount (chunk : List Char) : Nat :=
  countNB (sentSplit chunk)

/-- Stop-word set of `get_relevant_constitutional_articles`
(constitutional_retriever.py line 31). -/
def stopWords : List (List Char) :=
  ["what", "is", "the", "of", "to", "a", "and", "in", "or", "for", "with", "from",
    "as", "by"].map String.toList

/-- Keyword extraction of constitutional_retriever.py line 32:
lower-case, whitespace-split, drop stop words and tokens of length ≤ 2. -/
def extractKeywords (query : List Char) : List (List Char) :=
  (splitWs (lowerS query)).filter (fun w => decide (w ∉ stopWords ∧ 2 < w.length))

/-- `get_relevant_constitutional_articles` (constitutional_retriever.py lines
10–88) with the SQLite search abstracted as `dbSearch` (the database is
external to the repository): with no keywords the function returns `[]`
before any query is issued (lines 34–36); storage errors are caught and also
yield `[]` (lines 83–88), so the function is total. -/
def getRelevantConstitutionalArticles {α : Type} (dbSearch : List (List Char) → List α)
    (query : List Char) : List α :=
  if (extractKeywords query).isEmpty then [] else dbSearch (extractKeywords query)

/-- Well-formed sentence for the metadata/splitter agreement theorem: a
non-empty punctuation-free body whose first character is not whitespace,
followed by a single terminal mark. -/
def WfSent (s : List Char) : Prop :=
  s ≠ [] ∧ isTerm (s.getLastD 'x') = true ∧ s.dropLast ≠ [] ∧
    isWS (s.dropLast.headD 'x') = false ∧ ∀ c ∈ s.dropLast, isTerm c = false

instance : DecidablePred WfSent := fun s => by
  unfold WfSent
  infer_instance

/-! ### Basic facts about the string primitives -/

theorem filterNW_append (l1 l2 : List Char) :
    filterNW (l1 ++ l2) = filterNW l1 ++ filterNW l2 :=
  List.filter_append l1 l2

theorem filterNW_cons (c : Char) (l : List Char) :
    filterNW (c :: l) = if isWS c then filterNW l else c :: filterNW l := by
  simp only [filterNW, List.filter_cons]
  cases h : isWS c <;> simp [h]

theorem filterNW_dropWhile (l : List Char) :
    filterNW (l.dropWhile isWS) = filterNW l := by
  induction l with
  | nil => rfl
  | cons c rest ih =>
    rw [List.dropWhile_cons]
    by_cases h : isWS c
    · simpa [h, filterNW_cons] using ih
    · simp [h]

theorem filterNW_reverse (l : List Char) :
    filterNW l.reverse = (filterNW l).reverse := by
  simp [filterNW, List.filter_reverse]

theorem filterNW_pstrip (l : List Char) : filterNW (pstrip l) = filterNW l := by
  unfold pstrip
  rw [filterNW_reverse, filterNW_dropWhile, filterNW_reverse, List.reverse_reverse,
    filterNW_dropWhile]

theorem pstrip_eq_nil_iff (l : List Char) : pstrip l = [] ↔ filterNW l = [] := by
  constructor
  · intro h
    have := filterNW_pstrip l
    rw [h] at this
    exact this.symm
  · intro h
    have hall : ∀ c ∈ l, isWS c = true := by
      intro c hc
      have := List.filter_eq_nil_iff.mp h c hc
      simpa using this
    have hdw : l.dropWhile isWS = [] := List.dropWhile_eq_nil_iff.mpr hall
    simp [pstrip, hdw]

theorem pstrip_length_le (l : List Char) : (pstrip l).length ≤ l.length := by
  unfold pstrip
  calc ((l.dropWhile isWS).reverse.dropWhile isWS).reverse.length
      = ((l.dropWhile isWS).reverse.dropWhile isWS).length := List.length_reverse _
    _ ≤ (l.dropWhile isWS).reverse.length := (List.dropWhile_sublist _).length_le
    _ = (l.dropWhile isWS).length := List.length_reverse _
    _ ≤ l.length := (List.dropWhile_sublist _).length_le

theorem lastSpaceIdx_lt (l : List Char) (i : Nat) (h : lastSpaceIdx l = some i) :
    i < l.length := by
  induction l generalizing i with
  | nil => simp [lastSpaceIdx] at h
  | cons c rest ih =>
    rw [lastSpaceIdx] at h
    cases hr : lastSpaceIdx rest with
    | some j =>
      rw [hr] at h
      injection h with h
      subst h
      exact Nat.succ_lt_succ (ih j hr)
    | none =>
      rw [hr] at h
      by_cases hc : c = ' '
      · simp [hc] at h
        subst h
        exact Nat.succ_pos _
      · simp [hc] at h

theorem lastSpaceIdx_none (l : List Char) (h : lastSpaceIdx l = none) : ' ' ∉ l := by
  induction l with
  | nil => simp
  | cons c rest ih =>
    rw [lastSpaceIdx] at h
    cases hr : lastSpaceIdx rest with
    | some j => rw [hr] at h; exact absurd h (by simp)
    | none =>
      rw [hr] at h
      by_cases hc : c = ' '
      · simp [hc] at h
      · intro hmem
        rcases List.mem_cons.mp hmem with h1 | h1
        · exact hc h1.symm
        · exact ih hr h1

theorem lastSpaceIdx_after (l : List Char) (i : Nat) (h : lastSpaceIdx l = some i) :
    ' ' ∉ l.drop (i + 1) := by
  induction l generalizing i with
  | nil => simp
  | cons c rest ih =>
    rw [lastSpaceIdx] at h
    cases hr : lastSpaceIdx rest with
    | some j =>
      rw [hr] at h
      injection h with h
      subst h
      simpa using ih j hr
    | none =>
      rw [hr] at h
      by_cases hc : c = ' '
      · simp [hc] at h
        subst h
        simpa using lastSpaceIdx_none rest hr
      · simp [hc] at h

/-! ### Facts about the character-fallback window -/

theorem charEnd_ge (maxsz : Nat) (text : List Char) (start : Nat) :
    start ≤ charEnd maxsz text start := by
  unfold charEnd
  split
  · split
    · split
      · exact Nat.le_add_right _ _
      · exact Nat.le_add_right _ _
    · exact Nat.le_add_right _ _
  · exact Nat.le_add_right _ _

theorem charEnd_le (maxsz : Nat) (text : List Char) (start : Nat) :
    charEnd maxsz text start ≤ start + maxsz := by
  unfold charEnd
  split
  · split
    next i hi =>
      split
      · have hlt : i < ((text.drop start).take maxsz).length := lastSpaceIdx_lt _ _ hi
        have : i ≤ maxsz := le_of_lt (lt_of_lt_of_le hlt (by simp [List.length_take]))
        exact Nat.add_le_add_left this _
      · exact le_refl _
    next => exact le_refl _
  · exact le_refl _

theorem charEnd_pos (maxsz : Nat) (text : List Char) (start : Nat) (h : 1 ≤ maxsz) :
    start + 1 ≤ charEnd maxsz text start := by
  unfold charEnd
  split
  · split
    next i hi =>
      split
      next hcond =>
        have : 1 ≤ i := by
          by_contra hcon
          push_neg at hcon
          interval_cases i
          omega
        omega
      next => omega
    next => omega
  · omega

theorem drop_window (text : List Char) (start e : Nat) (h : start ≤ e) :
    text.drop start = (text.drop start).take (e - start) ++ text.drop e := by
  have h2 := List.take_append_drop (e - start) (text.drop start)
  rw [List.drop_drop, Nat.add_sub_cancel' h] at h2
  exact h2.symm

/-! ### The character-fallback loop: totality and invariants -/

theorem charAux_total (maxsz ov : Nat) (text : List Char) :
    ∀ fuel start, text.length ≤ start + fuel →
      ∃ r, charAux maxsz ov text fuel start = some r := by
  intro fuel
  induction fuel with
  | zero =>
    intro start h
    refine ⟨[], ?_⟩
    rw [charAux, if_neg (by omega)]
  | succ fuel ih =>
    intro start h
    by_cases hs : start < text.length
    · obtain ⟨r, hr⟩ := ih (max (start + 1) (charEnd maxsz text start - ov))
        (by have := Nat.le_max_left (start + 1) (charEnd maxsz text start - ov); omega)
      simp only [charAux, if_pos hs, hr]
      exact ⟨_, rfl⟩
    · exact ⟨[], by rw [charAux, if_neg hs]⟩

theorem charAux_bound (maxsz ov : Nat) (text : List Char) :
    ∀ fuel start r, charAux maxsz ov text fuel start = some r →
      ∀ ch ∈ r, ch.length ≤ maxsz := by
  intro fuel
  induction fuel with
  | zero =>
    intro start r h ch hch
    rw [charAux] at h
    split at h
    · exact absurd h (by simp)
    · cases h
      simp at hch
  | succ fuel ih =>
    intro start r h ch hch
    simp only [charAux] at h
    split at h
    case isFalse hs =>
      cases h
      simp at hch
    case isTrue hs =>
      cases hrec : charAux maxsz ov text fuel
          (max (start + 1) (charEnd maxsz text start - ov)) with
      | none => rw [hrec] at h; exact absurd h (by simp)
      | some rest =>
        rw [hrec] at h
        cases h
        have hrest : ∀ ch ∈ rest, ch.length ≤ maxsz := ih _ _ hrec
        have hchunk :
            (pstrip ((text.drop start).take (charEnd maxsz text start - start))).length
              ≤ maxsz := by
          calc (pstrip ((text.drop start).take (charEnd maxsz text start - start))).length
              ≤ ((text.drop start).take (charEnd maxsz text start - start)).length :=
                pstrip_length_le _
            _ ≤ charEnd maxsz text start - start := by simp [List.length_take]
            _ ≤ maxsz := by have := charEnd_le maxsz text start; omega
        split at hch
        · exact hrest ch hch
        · rcases List.mem_cons.mp hch with h1 | h1
          · subst h1; exact hchunk
          · exact hrest ch h1

theorem charAux_elems (maxsz ov : Nat) (text : List Char) :
    ∀ fuel start r, charAux maxsz ov text fuel start = some r →
      ∀ ch ∈ r, filterNW ch ≠ [] := by
  intro fuel
  induction fuel with
  | zero =>
    intro start r h ch hch
    rw [charAux] at h
    split at h
    · exact absurd h (by simp)
    · cases h
      simp at hch
  | succ fuel ih =>
    intro start r h ch hch
    simp only [charAux] at h
    split at h
    case isFalse hs =>
      cases h
      simp at hch
    case isTrue hs =>
      cases hrec : charAux maxsz ov text fuel
          (max (start + 1) (charEnd maxsz text start - ov)) with
      | none => rw [hrec] at h; exact absurd h (by simp)
      | some rest =>
        rw [hrec] at h
        cases h
        have hrest := ih _ _ hrec
        split at hch
        · exact hrest ch hch
        · rcases List.mem_cons.mp hch with h1 | h1
          · subst h1
            rename_i hne
            rw [filterNW_pstrip]
            intro hcon
            exact hne (by rw [List.isEmpty_iff]; exact (pstrip_eq_nil_iff _).mpr hcon)
          · exact hrest ch h1

theorem charAux_join (maxsz : Nat) (text : List Char) (hm : 1 ≤ maxsz) :
    ∀ fuel start, text.length ≤ start + fuel →
      ∃ r, charAux maxsz 0 text fuel start = some r ∧
        (r.map filterNW).flatten = filterNW (text.drop start) := by
  intro fuel
  induction fuel with
  | zero =>
    intro start h
    refine ⟨[], by rw [charAux, if_neg (by omega)], ?_⟩
    rw [List.drop_eq_nil_of_le (by omega)]
    rfl
  | succ fuel ih =>
    intro start h
    by_cases hs : start < text.length
    · set e := charEnd maxsz text start with he
      have hse : start + 1 ≤ e := charEnd_pos maxsz text start hm
      have hmax : max (start + 1) (e - 0) = e := by omega
      obtain ⟨r, hr, hjoin⟩ := ih e (by omega)
      rw [← hmax] at hr
      refine ⟨if (pstrip ((text.drop start).take (e - start))).isEmpty then r
        else pstrip ((text.drop start).take (e - start)) :: r, ?_, ?_⟩
      · simp only [charAux, if_pos hs, hr]
      · have hwin := drop_window text start e (by omega)
        have hsplit : filterNW (text.drop start) =
            filterNW ((text.drop start).take (e - start)) ++ filterNW (text.drop e) := by
          conv_lhs => rw [hwin]
          exact filterNW_append _ _
        rw [hsplit, ← hjoin]
        split
        next hemp =>
          have hz : filterNW ((text.drop start).take (e - start)) = [] := by
            rw [List.isEmpty_iff] at hemp
            rw [← filterNW_pstrip, hemp]
            rfl
          rw [hz]
          rfl
        next hemp =>
          simp only [List.map_cons, List.flatten_cons]
          rw [filterNW_pstrip]
    · refine ⟨[], by rw [charAux, if_neg hs], ?_⟩
      rw [List.drop_eq_nil_of_le (by omega)]
      rfl

theorem charAux_cover (maxsz ov : Nat) (text : List Char) (hm : 1 ≤ maxsz) :
    ∀ fuel start r, charAux maxsz ov text fuel start = some r →
      filterNW (text.drop start) ≠ [] → r ≠ [] := by
  intro fuel
  induction fuel with
  | zero =>
    intro start r h hnw
    rw [charAux] at h
    split at h
    · exact absurd h (by simp)
    case isFalse hs =>
      exfalso
      rw [List.drop_eq_nil_of_le (by omega)] at hnw
      exact hnw rfl
  | succ fuel ih =>
    intro start r h hnw
    simp only [charAux] at h
    split at h
    case isFalse hs =>
      exfalso
      rw [List.drop_eq_nil_of_le (by omega)] at hnw
      exact hnw rfl
    case isTrue hs =>
      set e := charEnd maxsz text start with he
      have hse : start + 1 ≤ e := charEnd_pos maxsz text start hm
      cases hrec : charAux maxsz ov text fuel (max (start + 1) (e - ov)) with
      | none => rw [hrec] at h; exact absurd h (by simp)
      | some rest =>
        rw [hrec] at h
        cases h
        split
        case isTrue hemp =>
          -- the window is all whitespace, so the remainder past `e` is not
          have hw : filterNW ((text.drop start).take (e - start)) = [] := by
            rw [List.isEmpty_iff] at hemp
            rw [← filterNW_pstrip, hemp]
            rfl
          have hrem : filterNW (text.drop e) ≠ [] := by
            intro hcon
            apply hnw
            rw [drop_window text start e (by omega), filterNW_append, hw, hcon]
            rfl
          have hrem' : filterNW (text.drop (max (start + 1) (e - ov))) ≠ [] := by
            intro hcon
            apply hrem
            have hle : max (start + 1) (e - ov) ≤ e := by omega
            rw [drop_window text (max (start + 1) (e - ov)) e hle, filterNW_append] at hcon
            exact (List.append_eq_nil.mp hcon).2
          exact ih _ _ hrec hrem'
        case isFalse hemp =>
          simp

theorem chunkByCharacters_eq (c : Chunker) (text : List Char) :
    charAux c.max_chunk_size c.overlap_size text text.length 0
      = some (chunkByCharacters c text) := by
  obtain ⟨r, hr⟩ := charAux_total c.max_chunk_size c.overlap_size text text.length 0
    (by omega)
  rw [chunkByCharacters, hr]
  rfl

theorem chunkByCharacters_bound (c : Chunker) (text : List Char) :
    ∀ ch ∈ chunkByCharacters c text, ch.length ≤ c.max_chunk_size :=
  charAux_bound _ _ _ _ _ _ (chunkByCharacters_eq c text)

theorem chunkByCharacters_elems (c : Chunker) (text : List Char) :
    ∀ ch ∈ chunkByCharacters c text, filterNW ch ≠ [] :=
  charAux_elems _ _ _ _ _ _ (chunkByCharacters_eq c text)

theorem chunkByCharacters_flatten (c : Chunker) (hm : 1 ≤ c.max_chunk_size)
    (hov : c.overlap_size = 0) (text : List Char) :
    ((chunkByCharacters c text).map filterNW).flatten = filterNW text := by
  obtain ⟨r, hr, hjoin⟩ := charAux_join c.max_chunk_size text hm text.length 0 (by omega)
  have heq := chunkByCharacters_eq c text
  rw [hov] at heq
  rw [heq] at hr
  cases hr
  simpa using hjoin

theorem chunkByCharacters_ne_nil (c : Chunker) (hm : 1 ≤ c.max_chunk_size)
    (text : List Char) (h : filterNW text ≠ []) : chunkByCharacters c text ≠ [] := by
  apply charAux_cover c.max_chunk_size c.overlap_size text hm text.length 0 _
    (chunkByCharacters_eq c text)
  simpa using h

/-! ### The sentence splitter preserves non-whitespace content -/

theorem sentAux_flatten :
    ∀ (l acc : List Char) (sk : Bool), (sk = true → acc = []) →
      ((sentAux l acc sk).map filterNW).flatten = filterNW acc.reverse ++ filterNW l := by
  intro l
  induction l with
  | nil =>
    intro acc sk _
    simp [sentAux, filterNW]
  | cons c rest ih =>
    intro acc sk hsk
    cases sk with
    | true =>
      rw [hsk rfl]
      by_cases hw : isWS c
      · rw [show sentAux (c :: rest) [] true = sentAux rest [] true by
          rw [sentAux, if_pos hw]]
        rw [ih [] true (fun _ => rfl)]
        simp [filterNW_cons, hw]
      · rw [show sentAux (c :: rest) [] true = sentAux rest [c] false by
          rw [sentAux, if_neg hw]]
        rw [ih [c] false (by simp)]
        simp [filterNW_cons, hw, filterNW]
    | false =>
      by_cases hc : isWS c && headTerm acc
      · have hw : isWS c = true := (Bool.and_eq_true_iff.mp hc).1
        rw [show sentAux (c :: rest) acc false
            = acc.reverse :: sentAux rest [] true by rw [sentAux, if_pos hc]]
        simp only [List.map_cons, List.flatten_cons]
        rw [ih [] true (fun _ => rfl)]
        simp [filterNW_cons, hw, filterNW]
      · rw [show sentAux (c :: rest) acc false = sentAux rest (c :: acc) false by
          rw [sentAux, if_neg hc]]
        rw [ih (c :: acc) false (by simp)]
        simp only [List.reverse_cons]
        rw [filterNW_append, filterNW_cons, filterNW_cons]
        by_cases hw : isWS c
        · simp [hw, filterNW]
        · simp [hw, filterNW]

theorem sentSplit_flatten (l : List Char) :
    ((sentSplit l).map filterNW).flatten = filterNW l := by
  rw [sentSplit, sentAux_flatten l [] false (by simp)]
  rfl

theorem flatten_dropLast_getLastD (r : List (List Char)) :
    (r.dropLast.map filterNW).flatten ++ filterNW (r.getLastD [])
      = (r.map filterNW).flatten := by
  induction r with
  | nil => rfl
  | cons a t ih =>
    cases t with
    | nil => simp [filterNW]
    | cons b t2 =>
      rw [show (a :: b :: t2).dropLast = a :: (b :: t2).dropLast from rfl]
      simp only [List.map_cons, List.flatten_cons]
      rw [List.append_assoc]
      rw [show (a :: b :: t2).getLastD [] = (b :: t2).getLastD [] by
        rw [List.getLastD_cons, List.getLastD_cons, List.getLastD_cons]]
      rw [ih]
      simp

/-! ### The sentence-accumulation fold -/

theorem sentFold_cons (c : Chunker) (s : List Char) (rest chunks : List (List Char))
    (current : List Char) :
    sentFold c (s :: rest) chunks current =
      if (pstrip s).isEmpty then sentFold c rest chunks current
      else if (if current.isEmpty then pstrip s
          else current ++ ' ' :: pstrip s).length ≤ c.max_chunk_size then
        sentFold c rest chunks
          (if current.isEmpty then pstrip s else current ++ ' ' :: pstrip s)
      else if c.max_chunk_size < (pstrip s).length then
        sentFold c rest
          ((if current.isEmpty then chunks else chunks ++ [pstrip current])
            ++ (chunkByCharacters c (pstrip s)).dropLast)
          ((chunkByCharacters c (pstrip s)).getLastD [])
      else
        sentFold c rest (if current.isEmpty then chunks else chunks ++ [pstrip current])
          (pstrip s) := rfl

theorem filterNW_potential (current s : List Char) :
    filterNW (if current.isEmpty then pstrip s else current ++ ' ' :: pstrip s)
      = filterNW current ++ filterNW s := by
  by_cases h : current.isEmpty
  · rw [List.isEmpty_iff] at h
    subst h
    rw [if_pos (by rfl), filterNW_pstrip]
    simp [filterNW]
  · rw [if_neg h, filterNW_append, filterNW_cons]
    have hsp : isWS ' ' = true := by decide
    rw [if_pos hsp, filterNW_pstrip]

theorem flatten_chunks1 (chunks : List (List Char)) (current : List Char) :
    ((if current.isEmpty then chunks else chunks ++ [pstrip current]).map filterNW).flatten
      = (chunks.map filterNW).flatten ++ filterNW current := by
  by_cases h : current.isEmpty
  · rw [List.isEmpty_iff] at h
    subst h
    simp [filterNW]
  · rw [if_neg h]
    simp [filterNW_pstrip]

theorem sentFold_flatten (c : Chunker) (hm : 1 ≤ c.max_chunk_size)
    (hov : c.overlap_size = 0) :
    ∀ (ss chunks : List (List Char)) (current : List Char),
      ((sentFold c ss chunks current).1.map filterNW).flatten
          ++ filterNW (sentFold c ss chunks current).2
        = ((chunks.map filterNW).flatten ++ filterNW current)
          ++ (ss.map filterNW).flatten := by
  intro ss
  induction ss with
  | nil =>
    intro chunks current
    simp [sentFold]
  | cons s rest ih =>
    intro chunks current
    rw [sentFold_cons]
    by_cases h1 : (pstrip s).isEmpty
    · rw [if_pos h1, ih]
      have hs : filterNW s = [] := by
        rw [List.isEmpty_iff] at h1
        exact (pstrip_eq_nil_iff s).mp h1
      simp [hs]
    · rw [if_neg h1]
      by_cases h2 : (if current.isEmpty then pstrip s
          else current ++ ' ' :: pstrip s).length ≤ c.max_chunk_size
      · rw [if_pos h2, ih, filterNW_potential]
        simp [List.append_assoc]
      · rw [if_neg h2]
        by_cases h3 : c.max_chunk_size < (pstrip s).length
        · rw [if_pos h3, ih]
          rw [List.map_append, List.flatten_append, flatten_chunks1]
          have hlsc : ((chunkByCharacters c (pstrip s)).dropLast.map filterNW).flatten
              ++ filterNW ((chunkByCharacters c (pstrip s)).getLastD [])
                = filterNW s := by
            rw [flatten_dropLast_getLastD, chunkByCharacters_flatten c hm hov,
              filterNW_pstrip]
          simp only [List.map_cons, List.flatten_cons]
          rw [← hlsc]
          simp [List.append_assoc]
        · rw [if_neg h3, ih, flatten_chunks1, filterNW_pstrip]
          simp [List.append_assoc]

theorem filterNW_nil : filterNW [] = [] := rfl

theorem preOverlapChunks_flatten (c : Chunker) (hm : 1 ≤ c.max_chunk_size)
    (hov : c.overlap_size = 0) (text : List Char) :
    ((preOverlapChunks c text).map filterNW).flatten = filterNW text := by
  unfold preOverlapChunks
  have hsf := sentFold_flatten c hm hov (sentSplit text) [] []
  rw [sentSplit_flatten] at hsf
  rw [show ((([] : List (List Char)).map filterNW).flatten ++ filterNW [])
      ++ filterNW text = filterNW text from rfl] at hsf
  by_cases h : (pstrip (sentFold c (sentSplit text) [] []).2).isEmpty
  · rw [if_pos h]
    have hz : filterNW (sentFold c (sentSplit text) [] []).2 = [] := by
      rw [List.isEmpty_iff] at h
      exact (pstrip_eq_nil_iff _).mp h
    rw [hz, List.append_nil] at hsf
    exact hsf
  · rw [if_neg h]
    rw [List.map_append, List.flatten_append]
    simp only [List.map_cons, List.map_nil, List.flatten_cons, List.flatten_nil]
    rw [filterNW_pstrip, List.append_nil]
    exact hsf

theorem chunkBySentences_flatten (c : Chunker) (hm : 1 ≤ c.max_chunk_size)
    (hov : c.overlap_size = 0) (text : List Char) :
    ((chunkBySentences c text).map filterNW).flatten = filterNW text := by
  unfold chunkBySentences
  rw [if_neg (by omega)]
  exact preOverlapChunks_flatten c hm hov text

theorem intercalate_empty (L : List (List Char)) : List.intercalate [] L = L.flatten := by
  induction L with
  | nil => rfl
  | cons a t ih =>
    cases t with
    | nil => simp [List.intercalate]
    | cons b t2 =>
      rw [List.intercalate] at ih ⊢
      rw [show List.intersperse ([] : List Char) (a :: b :: t2)
          = a :: [] :: List.intersperse [] (b :: t2) from rfl]
      simp only [List.flatten_cons, List.flatten_nil]
      rw [ih]
      simp

theorem flatten_filter_blank (L : List (List Char)) :
    ((L.filter (fun x => !x.isEmpty)).map filterNW).flatten = (L.map filterNW).flatten := by
  induction L with
  | nil => rfl
  | cons a t ih =>
    by_cases h : a.isEmpty
    · rw [List.filter_cons, if_neg (by simp [h])]
      rw [List.isEmpty_iff] at h
      subst h
      simp [ih, filterNW_nil]
    · rw [List.filter_cons, if_pos (by simp [h])]
      simp [ih]

theorem recombine_filterNW (chunks : List (List Char)) :
    filterNW (recombineChunks chunks []) = (chunks.map filterNW).flatten := by
  rw [recombineChunks, intercalate_empty]
  rw [show filterNW ((chunks.map pstrip).filter (fun x => !x.isEmpty)).flatten
      = (((chunks.map pstrip).filter (fun x => !x.isEmpty)).map filterNW).flatten from
    List.filter_flatten _ _]
  rw [flatten_filter_blank, List.map_map]
  congr 1
  exact List.map_congr_left (fun a _ => filterNW_pstrip a)

/-! ### The overlap post-pass -/

theorem overlapOf_length (c : Chunker) (prev : List Char) :
    (overlapOf c prev).length ≤ c.overlap_size := by
  unfold overlapOf
  split
  next h =>
    split
    next i hi =>
      calc ((prev.drop (prev.length - c.overlap_size)).drop (i + 1)).length
          ≤ (prev.drop (prev.length - c.overlap_size)).length := by
            rw [List.length_drop, List.length_drop]
            omega
        _ ≤ c.overlap_size := by
            rw [List.length_drop]
            omega
    next =>
      rw [List.length_drop]
      omega
  next h =>
    omega

theorem overlapOf_suffix (c : Chunker) (prev : List Char) :
    ∃ pre, pre ++ overlapOf c prev = prev := by
  unfold overlapOf
  split
  · split
    next i hi =>
      refine ⟨prev.take (prev.length - c.overlap_size)
        ++ (prev.drop (prev.length - c.overlap_size)).take (i + 1), ?_⟩
      rw [List.append_assoc, List.take_append_drop, List.take_append_drop]
    next =>
      exact ⟨prev.take (prev.length - c.overlap_size), List.take_append_drop _ _⟩
  · exact ⟨[], rfl⟩

theorem overlapOf_space (c : Chunker) (prev : List Char) :
    overlapOf c prev = prev ∨ ' ' ∉ overlapOf c prev := by
  unfold overlapOf
  split
  · right
    split
    next i hi => exact lastSpaceIdx_after _ _ hi
    next hnone => exact lastSpaceIdx_none _ hnone
  · left
    rfl

theorem addOverlapAux_length (c : Chunker) :
    ∀ (rest : List (List Char)) (prev : List Char),
      (addOverlapAux c prev rest).length = rest.length := by
  intro rest
  induction rest with
  | nil => intro prev; rfl
  | cons a t ih => intro prev; simp [addOverlapAux, ih]

theorem addOverlapAux_get (c : Chunker) :
    ∀ (rest : List (List Char)) (prev : List Char) (i : Nat) (prv cur : List Char),
      (prev :: rest).get? i = some prv → rest.get? i = some cur →
        (addOverlapAux c prev rest).get? i = some (overlapOf c prv ++ ' ' :: cur) := by
  intro rest
  induction rest with
  | nil =>
    intro prev i prv cur h1 h2
    simp at h2
  | cons a t ih =>
    intro prev i prv cur h1 h2
    cases i with
    | zero =>
      simp at h1 h2
      subst h1
      subst h2
      rfl
    | succ j =>
      exact ih a j prv cur h1 h2

theorem addOverlapAux_mem (c : Chunker) :
    ∀ (rest : List (List Char)) (prev ch : List Char), ch ∈ addOverlapAux c prev rest →
      ∃ p cur, ch = overlapOf c p ++ ' ' :: cur ∧ cur ∈ rest := by
  intro rest
  induction rest with
  | nil => intro prev ch h; simp [addOverlapAux] at h
  | cons a t ih =>
    intro prev ch h
    rw [addOverlapAux] at h
    rcases List.mem_cons.mp h with h1 | h1
    · exact ⟨prev, a, h1, List.mem_cons_self _ _⟩
    · obtain ⟨p, cur, hc, hm⟩ := ih a ch h1
      exact ⟨p, cur, hc, List.mem_cons_of_mem _ hm⟩

theorem addOverlap_length (c : Chunker) (chunks : List (List Char)) :
    (addOverlap c chunks).length = chunks.length := by
  unfold addOverlap
  split
  · rfl
  next h =>
    match chunks with
    | [] => rfl
    | first :: rest => simp [addOverlapAux_length]

theorem addOverlap_bound (c : Chunker) (chunks : List (List Char))
    (h : ∀ ch ∈ chunks, ch.length ≤ c.max_chunk_size) :
    ∀ ch ∈ addOverlap c chunks, ch.length ≤ c.max_chunk_size + c.overlap_size + 1 := by
  unfold addOverlap
  split
  · intro ch hch
    have := h ch hch
    omega
  next hguard =>
    match chunks with
    | [] => intro ch hch; simp at hch
    | first :: rest =>
      intro ch hch
      rcases List.mem_cons.mp hch with h1 | h1
      · subst h1
        have := h ch (by exact List.mem_cons_self _ _)
        omega
      · obtain ⟨p, cur, hc, hm⟩ := addOverlapAux_mem c rest first ch h1
        subst hc
        have hcur := h cur (List.mem_cons_of_mem _ hm)
        have hov := overlapOf_length c p
        simp only [List.length_append, List.length_cons]
        omega

theorem getLastD_mem {α : Type} :
    ∀ (l : List α) (d : α), l ≠ [] → l.getLastD d ∈ l := by
  intro l
  induction l with
  | nil => intro d h; exact absurd rfl h
  | cons a t ih =>
    intro d _
    rw [List.getLastD_cons]
    cases ht : t with
    | nil => simp
    | cons b t2 =>
      have := ih a (by simp [ht])
      rw [ht] at this
      exact List.mem_cons_of_mem _ this

/-! ### Size bound for the sentence-mode chunks -/

theorem sentFold_bound (c : Chunker) :
    ∀ (ss chunks : List (List Char)) (current : List Char),
      (∀ ch ∈ chunks, ch.length ≤ c.max_chunk_size) →
      current.length ≤ c.max_chunk_size →
      (∀ ch ∈ (sentFold c ss chunks current).1, ch.length ≤ c.max_chunk_size) ∧
        (sentFold c ss chunks current).2.length ≤ c.max_chunk_size := by
  intro ss
  induction ss with
  | nil =>
    intro chunks current h1 h2
    exact ⟨h1, h2⟩
  | cons s rest ih =>
    intro chunks current h1 h2
    rw [sentFold_cons]
    by_cases hb1 : (pstrip s).isEmpty
    · rw [if_pos hb1]
      exact ih chunks current h1 h2
    · rw [if_neg hb1]
      by_cases hb2 : (if current.isEmpty then pstrip s
          else current ++ ' ' :: pstrip s).length ≤ c.max_chunk_size
      · rw [if_pos hb2]
        exact ih _ _ h1 hb2
      · rw [if_neg hb2]
        have hch1 : ∀ ch ∈ (if current.isEmpty then chunks
            else chunks ++ [pstrip current]), ch.length ≤ c.max_chunk_size := by
          split
          · exact h1
          · intro ch hch
            rcases List.mem_append.mp hch with h | h
            · exact h1 ch h
            · simp at h
              subst h
              exact le_trans (pstrip_length_le _) h2
        by_cases hb3 : c.max_chunk_size < (pstrip s).length
        · rw [if_pos hb3]
          apply ih
          · intro ch hch
            rcases List.mem_append.mp hch with h | h
            · exact hch1 ch h
            · exact chunkByCharacters_bound c (pstrip s) ch
                ((List.dropLast_sublist _).subset h)
          · cases hc : chunkByCharacters c (pstrip s) with
            | nil => simp [List.getLastD]
            | cons a t =>
              have hmem : (a :: t).getLastD [] ∈ a :: t :=
                getLastD_mem (a :: t) [] (by simp)
              rw [← hc] at hmem
              rw [← hc]
              exact chunkByCharacters_bound c (pstrip s) _ hmem
        · rw [if_neg hb3]
          exact ih _ _ hch1 (by omega)

theorem preOverlapChunks_bound (c : Chunker) (text : List Char) :
    ∀ ch ∈ preOverlapChunks c text, ch.length ≤ c.max_chunk_size := by
  unfold preOverlapChunks
  have hsf := sentFold_bound c (sentSplit text) [] [] (by simp) (by simp)
  split
  · exact hsf.1
  · intro ch hch
    rcases List.mem_append.mp hch with h | h
    · exact hsf.1 ch h
    · simp at h
      subst h
      exact le_trans (pstrip_length_le _) hsf.2

theorem chunkBySentences_bound (c : Chunker) (text : List Char) :
    ∀ ch ∈ chunkBySentences c text, ch.length ≤ c.max_chunk_size + c.overlap_size + 1 := by
  unfold chunkBySentences
  split
  · exact addOverlap_bound c _ (preOverlapChunks_bound c text)
  · intro ch hch
    have := preOverlapChunks_bound c text ch hch
    omega

theorem chunkBySentences_bound0 (c : Chunker) (hov : c.overlap_size = 0)
    (text : List Char) :
    ∀ ch ∈ chunkBySentences c text, ch.length ≤ c.max_chunk_size := by
  unfold chunkBySentences
  rw [if_neg (by omega)]
  exact preOverlapChunks_bound c text

/-! ### Non-emptiness of the output on non-blank input -/

theorem sentFold_chunks_mono (c : Chunker) :
    ∀ (ss chunks : List (List Char)) (current : List Char), chunks ≠ [] →
      (sentFold c ss chunks current).1 ≠ [] := by
  intro ss
  induction ss with
  | nil =>
    intro chunks current h
    exact h
  | cons s rest ih =>
    intro chunks current h
    rw [sentFold_cons]
    by_cases hb1 : (pstrip s).isEmpty
    · rw [if_pos hb1]
      exact ih chunks current h
    · rw [if_neg hb1]
      have hch1 : (if current.isEmpty then chunks else chunks ++ [pstrip current]) ≠ [] := by
        split
        · exact h
        · simp
      by_cases hb2 : (if current.isEmpty then pstrip s
          else current ++ ' ' :: pstrip s).length ≤ c.max_chunk_size
      · rw [if_pos hb2]
        exact ih _ _ h
      · rw [if_neg hb2]
        by_cases hb3 : c.max_chunk_size < (pstrip s).length
        · rw [if_pos hb3]
          apply ih
          intro hcon
          rcases List.append_eq_nil.mp hcon with ⟨h1, _⟩
          exact hch1 h1
        · rw [if_neg hb3]
          exact ih _ _ hch1

theorem sentFold_ne (c : Chunker) (hm : 1 ≤ c.max_chunk_size) :
    ∀ (ss chunks : List (List Char)) (current : List Char),
      (chunks ≠ [] ∨ filterNW current ≠ [] ∨ ∃ s ∈ ss, filterNW s ≠ []) →
      ((sentFold c ss chunks current).1 ≠ [] ∨
        filterNW (sentFold c ss chunks current).2 ≠ []) := by
  intro ss
  induction ss with
  | nil =>
    intro chunks current h
    rcases h with h | h | h
    · exact Or.inl h
    · exact Or.inr h
    · simp at h
  | cons s rest ih =>
    intro chunks current h
    rw [sentFold_cons]
    by_cases hb1 : (pstrip s).isEmpty
    · rw [if_pos hb1]
      apply ih
      rcases h with h | h | ⟨w, hw, hnw⟩
      · exact Or.inl h
      · exact Or.inr (Or.inl h)
      · rcases List.mem_cons.mp hw with h1 | h1
        · subst h1
          exfalso
          rw [List.isEmpty_iff, pstrip_eq_nil_iff] at hb1
          exact hnw hb1
        · exact Or.inr (Or.inr ⟨w, h1, hnw⟩)
    · rw [if_neg hb1]
      have hs : filterNW s ≠ [] := by
        intro hcon
        rw [List.isEmpty_iff] at hb1
        exact hb1 ((pstrip_eq_nil_iff s).mpr hcon)
      have hps : filterNW (pstrip s) ≠ [] := by
        rw [filterNW_pstrip]
        exact hs
      by_cases hb2 : (if current.isEmpty then pstrip s
          else current ++ ' ' :: pstrip s).length ≤ c.max_chunk_size
      · rw [if_pos hb2]
        apply ih
        refine Or.inr (Or.inl ?_)
        rw [filterNW_potential]
        intro hcon
        exact hs (List.append_eq_nil.mp hcon).2
      · rw [if_neg hb2]
        by_cases hb3 : c.max_chunk_size < (pstrip s).length
        · rw [if_pos hb3]
          have hlsc : chunkByCharacters c (pstrip s) ≠ [] :=
            chunkByCharacters_ne_nil c hm (pstrip s) hps
          cases hc : chunkByCharacters c (pstrip s) with
          | nil => exact absurd hc hlsc
          | cons a t =>
            cases t with
            | nil =>
              apply ih
              refine Or.inr (Or.inl ?_)
              have hga : ([a] : List (List Char)).getLastD [] = a := rfl
              rw [hga]
              exact chunkByCharacters_elems c (pstrip s) a (by rw [hc]; simp)
            | cons b t2 =>
              apply ih
              refine Or.inl ?_
              intro hcon
              rcases List.append_eq_nil.mp hcon with ⟨_, h2⟩
              simp at h2
        · rw [if_neg hb3]
          apply ih
          exact Or.inr (Or.inl hps)

theorem preOverlapChunks_ne (c : Chunker) (hm : 1 ≤ c.max_chunk_size)
    (text : List Char) (h : filterNW text ≠ []) : preOverlapChunks c text ≠ [] := by
  have hex : ∃ s ∈ sentSplit text, filterNW s ≠ [] := by
    by_contra hcon
    push_neg at hcon
    apply h
    rw [← sentSplit_flatten]
    rw [List.flatten_eq_nil_iff]
    intro l hl
    rw [List.mem_map] at hl
    obtain ⟨x, hx, hxx⟩ := hl
    rw [← hxx]
    exact hcon x hx
  have hsf := sentFold_ne c hm (sentSplit text) [] [] (Or.inr (Or.inr hex))
  unfold preOverlapChunks
  split
  next hb =>
    rcases hsf with h1 | h1
    · exact h1
    · exfalso
      rw [List.isEmpty_iff, pstrip_eq_nil_iff] at hb
      exact h1 hb
  next hb =>
    simp

theorem addOverlap_ne (c : Chunker) (chunks : List (List Char)) (h : chunks ≠ []) :
    addOverlap c chunks ≠ [] := by
  intro hcon
  apply h
  have := addOverlap_length c chunks
  rw [hcon] at this
  exact List.length_eq_zero.mp this.symm

theorem chunkBySentences_ne (c : Chunker) (hm : 1 ≤ c.max_chunk_size)
    (text : List Char) (h : filterNW text ≠ []) : chunkBySentences c text ≠ [] := by
  unfold chunkBySentences
  split
  · exact addOverlap_ne c _ (preOverlapChunks_ne c hm text h)
  · exact preOverlapChunks_ne c hm text h

/-! ### The relevance ranker returns an index-ordered sub-selection -/

theorem map_snd_sublist {β : Type} :
    ∀ (chunks : List β) (L : List (Nat × β)),
      L.Pairwise (fun a b => a.1 < b.1) →
      (∀ x ∈ L, chunks.get? x.1 = some x.2) →
      (L.map Prod.snd).Sublist chunks := by
  intro chunks
  induction chunks with
  | nil =>
    intro L hp hm
    cases L with
    | nil => exact List.Sublist.refl _
    | cons x L' => exact absurd (hm x (List.mem_cons_self _ _)) (by simp)
  | cons ch rest ih =>
    intro L hp hm
    have hshift : ∀ (M : List (Nat × β)), M.Pairwise (fun a b => a.1 < b.1) →
        (∀ y ∈ M, (ch :: rest).get? y.1 = some y.2) → (∀ y ∈ M, 0 < y.1) →
        (M.map Prod.snd).Sublist rest := by
      intro M hMp hMm hMpos
      have hmm : (M.map (fun y => (y.1 - 1, y.2))).map Prod.snd = M.map Prod.snd := by
        rw [List.map_map]
        rfl
      rw [← hmm]
      apply ih
      · rw [List.pairwise_map]
        refine hMp.imp_of_mem ?_
        intro a b ha hb hab
        have h1 := hMpos a ha
        have h2 := hMpos b hb
        omega
      · intro y hy
        rw [List.mem_map] at hy
        obtain ⟨y', hy', rfl⟩ := hy
        have hg := hMm y' hy'
        have hpos := hMpos y' hy'
        cases hy1 : y'.1 with
        | zero => omega
        | succ k =>
          rw [hy1, List.get?_cons_succ] at hg
          simpa [hy1] using hg
    cases L with
    | nil => exact List.nil_sublist _
    | cons x L' =>
      have hxg := hm x (List.mem_cons_self _ _)
      have hL' := (List.pairwise_cons.mp hp).1
      have hp' := (List.pairwise_cons.mp hp).2
      cases hx1 : x.1 with
      | zero =>
        rw [hx1, List.get?_cons_zero] at hxg
        have hx2 : x.2 = ch := by
          injection hxg with h
          exact h.symm
        rw [List.map_cons, hx2]
        refine List.Sublist.cons₂ ch ?_
        apply hshift L' hp'
        · intro y hy
          exact hm y (List.mem_cons_of_mem _ hy)
        · intro y hy
          have := hL' y hy
          omega
      | succ k =>
        refine List.Sublist.cons ch ?_
        apply hshift (x :: L') hp hm
        intro y hy
        rcases List.mem_cons.mp hy with h1 | h1
        · subst h1
          omega
        · have := hL' y h1
          omega

theorem scoredChunks_get (query : List Char) (chunks : List (List Char)) :
    ∀ x ∈ scoredChunks query chunks, chunks.get? x.2.1 = some x.2.2 := by
  intro x hx
  rw [scoredChunks, List.mem_map] at hx
  obtain ⟨p, hp, rfl⟩ := hx
  rw [List.get?_eq_getElem?]
  exact List.mem_enum_iff_getElem?.mp hp

theorem scoredChunks_map_idx (query : List Char) (chunks : List (List Char)) :
    (scoredChunks query chunks).map (fun x => x.2.1) = List.range chunks.length := by
  rw [scoredChunks, List.map_map]
  exact List.enum_map_fst chunks

theorem scoredChunks_length (query : List Char) (chunks : List (List Char)) :
    (scoredChunks query chunks).length = chunks.length := by
  rw [scoredChunks, List.length_map, List.enum_length]

theorem findRelevantChunks_spec (c : Chunker) (text query : List Char) (k : Nat) :
    (findRelevantChunks c text query k).Sublist (chunkDocument c text) ∧
      (findRelevantChunks c text query k).length ≤ k ∧
      ((chunkDocument c text).length ≤ k →
        findRelevantChunks c text query k = chunkDocument c text) := by
  unfold findRelevantChunks
  by_cases hk : (chunkDocument c text).length ≤ k
  · rw [if_pos hk]
    exact ⟨List.Sublist.refl _, hk, fun _ => rfl⟩
  · rw [if_neg hk]
    refine ⟨?_, ?_, fun h => absurd h hk⟩
    · -- the selected triples and their provenance
      have hperm1 : ((scoredChunks query (chunkDocument c text)).mergeSort scoreDesc).Perm
          (scoredChunks query (chunkDocument c text)) := List.mergeSort_perm _ _
      have hsub0 : ((((scoredChunks query (chunkDocument c text)).mergeSort
          scoreDesc).take k)).Sublist
          ((scoredChunks query (chunkDocument c text)).mergeSort scoreDesc) :=
        List.take_sublist _ _
      have hperm2 : (((((scoredChunks query (chunkDocument c text)).mergeSort
          scoreDesc).take k)).mergeSort idxAsc).Perm
          ((((scoredChunks query (chunkDocument c text)).mergeSort scoreDesc).take k)) :=
        List.mergeSort_perm _ _
      have hmem : ∀ x ∈ ((((scoredChunks query (chunkDocument c text)).mergeSort
          scoreDesc).take k)).mergeSort idxAsc,
          x ∈ scoredChunks query (chunkDocument c text) := by
        intro x hx
        exact hperm1.mem_iff.mp (hsub0.subset (hperm2.mem_iff.mp hx))
      have hsorted : (((((scoredChunks query (chunkDocument c text)).mergeSort
          scoreDesc).take k)).mergeSort idxAsc).Pairwise (fun a b => a.2.1 ≤ b.2.1) := by
        have h := @List.sorted_mergeSort _ idxAsc
          (by intro a b cc hab hbc
              simp only [idxAsc, decide_eq_true_eq] at hab hbc ⊢
              omega)
          (by intro a b
              simp only [idxAsc]
              by_cases h : a.2.1 ≤ b.2.1
              · simp [h]
              · simp [h]
                omega)
          ((((scoredChunks query (chunkDocument c text)).mergeSort scoreDesc).take k))
        refine h.imp ?_
        intro a b hab
        simpa [idxAsc, decide_eq_true_eq] using hab
      have hnodup : ((((((scoredChunks query (chunkDocument c text)).mergeSort
          scoreDesc).take k)).mergeSort idxAsc).map (fun x => x.2.1)).Nodup := by
        have h0 : ((scoredChunks query (chunkDocument c text)).map
            (fun x => x.2.1)).Nodup := by
          rw [scoredChunks_map_idx]
          exact List.nodup_range _
        have h1 := ((hperm1.map (fun x => x.2.1)).nodup_iff).mpr h0
        have h2 := (hsub0.map (fun x => x.2.1)).nodup h1
        exact ((hperm2.map (fun x => x.2.1)).nodup_iff).mpr h2
      have hne : (((((scoredChunks query (chunkDocument c text)).mergeSort
          scoreDesc).take k)).mergeSort idxAsc).Pairwise (fun a b => a.2.1 ≠ b.2.1) := by
        exact List.pairwise_map.mp hnodup
      have hlt : (((((scoredChunks query (chunkDocument c text)).mergeSort
          scoreDesc).take k)).mergeSort idxAsc).Pairwise (fun a b => a.2.1 < b.2.1) := by
        refine (hsorted.and hne).imp ?_
        intro a b hab
        omega
      have hmapeq : ((((((scoredChunks query (chunkDocument c text)).mergeSort
          scoreDesc).take k)).mergeSort idxAsc).map (fun x => x.2.2))
          = (((((((scoredChunks query (chunkDocument c text)).mergeSort
          scoreDesc).take k)).mergeSort idxAsc).map
            (fun x => (x.2.1, x.2.2))).map Prod.snd) := by
        rw [List.map_map]
        rfl
      rw [hmapeq]
      apply map_snd_sublist
      · rw [List.pairwise_map]
        exact hlt
      · intro y hy
        rw [List.mem_map] at hy
        obtain ⟨x, hx, rfl⟩ := hy
        exact scoredChunks_get query (chunkDocument c text) x (hmem x hx)
    · rw [List.length_map, List.length_mergeSort, List.length_take,
        List.length_mergeSort, scoredChunks_length]
      omega

/-! ### Sentence counting: the metadata estimate versus the splitter -/

theorem intercalate_cons₂ (sep x y : List Char) (t : List (List Char)) :
    List.intercalate sep (x :: y :: t) = x ++ sep ++ List.intercalate sep (y :: t) := by
  rw [List.intercalate, List.intercalate]
  rw [show List.intersperse sep (x :: y :: t) = x :: sep :: List.intersperse sep (y :: t)
    from rfl]
  simp [List.append_assoc]

theorem intercalate_single (sep x : List Char) : List.intercalate sep [x] = x := by
  simp [List.intercalate]

theorem modifyHead_comp {α : Type} (f g : α → α) (l : List α) :
    (l.modifyHead g).modifyHead f = l.modifyHead (fun a => f (g a)) := by
  cases l <;> rfl

theorem splitDots_ne_nil (l : List Char) : splitDots l ≠ [] := by
  induction l with
  | nil => simp [splitDots]
  | cons c rest ih =>
    rw [splitDots]
    split
    · simp
    · cases h : splitDots rest with
      | nil => exact absurd h ih
      | cons p ps => simp [List.modifyHead]

theorem splitDots_dotfree (xs : List Char) :
    ∀ ys, (∀ ch ∈ xs, ch ≠ '.') →
      splitDots (xs ++ ys) = (splitDots ys).modifyHead (fun p => xs ++ p) := by
  induction xs with
  | nil =>
    intro ys _
    cases h : splitDots ys with
    | nil => exact absurd h (splitDots_ne_nil ys)
    | cons p ps =>
      rw [List.nil_append, h]
      simp [List.modifyHead]
  | cons c xs' ih =>
    intro ys hfree
    rw [List.cons_append, splitDots,
      if_neg (hfree c (List.mem_cons_self _ _)),
      ih ys (fun ch hch => hfree ch (List.mem_cons_of_mem _ hch)), modifyHead_comp]
    rfl

theorem countNB_cons (s : List Char) (L : List (List Char)) :
    countNB (s :: L) = (if (pstrip s).isEmpty then 0 else 1) + countNB L := by
  rw [countNB, List.filter_cons]
  by_cases h : (pstrip s).isEmpty
  · simp [h, countNB]
  · simp [h, countNB, Nat.add_comm]

theorem countNB_modifyHead_ws (L : List (List Char)) (hL : L ≠ []) :
    countNB (L.modifyHead (fun p => ' ' :: p)) = countNB L := by
  cases L with
  | nil => exact absurd rfl hL
  | cons h t =>
    rw [List.modifyHead, countNB_cons, countNB_cons]
    have hiff : pstrip (' ' :: h) = [] ↔ pstrip h = [] := by
      rw [pstrip_eq_nil_iff, pstrip_eq_nil_iff, filterNW_cons, if_pos (by decide)]
    have heq : (pstrip (' ' :: h)).isEmpty = (pstrip h).isEmpty := by
      cases hb : (pstrip h).isEmpty
      · refine Bool.eq_false_iff.mpr ?_
        intro hc
        have h1 := hiff.mp (List.isEmpty_iff.mp hc)
        exact absurd (List.isEmpty_iff.mpr h1) (by rw [hb]; simp)
      · rw [List.isEmpty_iff] at hb ⊢
        exact hiff.mpr hb
    rw [heq]

theorem replTerm_body (body : List Char) (h : ∀ ch ∈ body, isTerm ch = false) :
    body.map replTerm = body := by
  conv_rhs => rw [← List.map_id body]
  apply List.map_congr_left
  intro a ha
  have ht := h a ha
  show replTerm a = a
  rw [replTerm, if_neg]
  intro hcon
  rcases hcon with h1 | h1
  · subst h1
    simp [isTerm] at ht
  · subst h1
    simp [isTerm] at ht

theorem replTerm_term (p : Char) (h : isTerm p = true) : replTerm p = '.' := by
  rw [isTerm] at h
  rcases Bool.or_eq_true_iff.mp h with h1 | h1
  · rcases Bool.or_eq_true_iff.mp h1 with h2 | h2
    · rw [decide_eq_true_eq] at h2
      simp [replTerm, h2]
    · rw [decide_eq_true_eq] at h2
      simp [replTerm, h2]
  · rw [decide_eq_true_eq] at h1
    simp [replTerm, h1]

/-- Canonical decomposition of a well-formed sentence. -/
theorem wfSent_elim (s : List Char) (h : WfSent s) :
    ∃ bh bt p, s = (bh :: bt) ++ [p] ∧ isTerm p = true ∧ isWS bh = false ∧
      (∀ ch ∈ bh :: bt, isTerm ch = false) := by
  obtain ⟨hne, hterm, hbody, hhead, hfree⟩ := h
  cases hb : s.dropLast with
  | nil => exact absurd hb hbody
  | cons bh bt =>
    refine ⟨bh, bt, s.getLast hne, ?_, ?_, ?_, ?_⟩
    · rw [← hb, List.dropLast_append_getLast hne]
    · rw [show s.getLast hne = s.getLastD 'x' from ?_]
      · exact hterm
      · rw [List.getLastD_eq_getLast?, List.getLast?_eq_getLast s hne]
        rfl
    · rw [hb] at hhead
      exact hhead
    · rw [← hb]
      exact hfree

theorem pstrip_head_ne (bh : Char) (bt : List Char) (h : isWS bh = false) :
    (pstrip (bh :: bt)).isEmpty = false := by
  refine Bool.eq_false_iff.mpr ?_
  intro hc
  have h2 := (pstrip_eq_nil_iff _).mp (List.isEmpty_iff.mp hc)
  rw [filterNW_cons, if_neg (by simp [h])] at h2
  simp at h2

theorem term_not_ws (p : Char) (h : isTerm p = true) : isWS p = false := by
  rw [isTerm] at h
  rcases Bool.or_eq_true_iff.mp h with h1 | h1
  · rcases Bool.or_eq_true_iff.mp h1 with h2 | h2
    · rw [decide_eq_true_eq] at h2
      subst h2
      decide
    · rw [decide_eq_true_eq] at h2
      subst h2
      decide
  · rw [decide_eq_true_eq] at h1
    subst h1
    decide

theorem term_ne_dot (ch : Char) (h : isTerm ch = false) : ch ≠ '.' := by
  intro hc
  subst hc
  simp [isTerm] at h

theorem map_replTerm_intercalate : ∀ (ss : List (List Char)),
    (List.intercalate [' '] ss).map replTerm
      = List.intercalate [' '] (ss.map (fun s => s.map replTerm)) := by
  intro ss
  induction ss with
  | nil => rfl
  | cons s t ih =>
    cases t with
    | nil =>
      rw [List.map_cons, List.map_nil, intercalate_single, intercalate_single]
    | cons s2 t2 =>
      rw [intercalate_cons₂, List.map_append, List.map_append,
        show ([' '] : List Char).map replTerm = [' '] by simp [replTerm], ih]
      simp only [List.map_cons]
      rw [intercalate_cons₂]

theorem metaCount_aux : ∀ (ss : List (List Char)),
    (∀ s ∈ ss, ∃ bh bt, s = (bh :: bt) ++ ['.'] ∧ isWS bh = false ∧
      ∀ ch ∈ bh :: bt, ch ≠ '.') →
    countNB (splitDots (List.intercalate [' '] ss)) = ss.length := by
  intro ss
  induction ss with
  | nil => intro _; rfl
  | cons s t ih =>
    intro hwf
    obtain ⟨bh, bt, hs, hhead, hfree⟩ := hwf s (List.mem_cons_self _ _)
    cases t with
    | nil =>
      rw [intercalate_single, hs, splitDots_dotfree (bh :: bt) ['.'] hfree,
        show splitDots ['.'] = [[], []] from rfl, List.modifyHead,
        countNB_cons, countNB_cons]
      rw [List.append_nil, pstrip_head_ne bh bt hhead]
      rfl
    | cons s2 t2 =>
      rw [intercalate_cons₂, hs]
      rw [show ((bh :: bt) ++ ['.']) ++ [' '] ++ List.intercalate [' '] (s2 :: t2)
          = (bh :: bt) ++ ('.' :: ' ' :: List.intercalate [' '] (s2 :: t2)) by simp]
      rw [splitDots_dotfree (bh :: bt) _ hfree]
      rw [show splitDots ('.' :: ' ' :: List.intercalate [' '] (s2 :: t2))
          = [] :: splitDots (' ' :: List.intercalate [' '] (s2 :: t2)) by
        rw [splitDots, if_pos rfl]]
      rw [List.modifyHead, List.append_nil]
      rw [show splitDots (' ' :: List.intercalate [' '] (s2 :: t2))
          = (splitDots (List.intercalate [' '] (s2 :: t2))).modifyHead
            (fun p => ' ' :: p) by
        rw [splitDots, if_neg (by decide)]]
      rw [countNB_cons, pstrip_head_ne bh bt hhead,
        countNB_modifyHead_ws _ (splitDots_ne_nil _),
        ih (fun x hx => hwf x (List.mem_cons_of_mem _ hx))]
      simp
      omega

theorem metaCount_wf (ss : List (List Char)) (hwf : ∀ s ∈ ss, WfSent s) :
    metaSentenceCount (List.intercalate [' '] ss) = ss.length := by
  rw [metaSentenceCount, map_replTerm_intercalate]
  have hlen : (ss.map (fun s => s.map replTerm)).length = ss.length :=
    List.length_map _ _
  rw [← hlen]
  apply metaCount_aux
  intro s' hs'
  rw [List.mem_map] at hs'
  obtain ⟨s, hs, rfl⟩ := hs'
  obtain ⟨bh, bt, p, hdec, hp, hhead, hfree⟩ := wfSent_elim s (hwf s hs)
  refine ⟨bh, bt, ?_, hhead, ?_⟩
  · rw [hdec, List.map_append, replTerm_body (bh :: bt) hfree]
    rw [show ([p].map replTerm) = ['.'] by rw [List.map_cons, List.map_nil,
      replTerm_term p hp]]
  · intro ch hch
    exact term_ne_dot ch (hfree ch hch)

theorem sentAux_body : ∀ (body l acc : List Char),
    (∀ ch ∈ body, isTerm ch = false) → headTerm acc = false →
    sentAux (body ++ l) acc false = sentAux l (body.reverse ++ acc) false := by
  intro body
  induction body with
  | nil =>
    intro l acc _ _
    simp
  | cons ch body' ih =>
    intro l acc hfree hacc
    rw [List.cons_append]
    rw [show sentAux (ch :: (body' ++ l)) acc false
        = sentAux (body' ++ l) (ch :: acc) false by
      rw [sentAux, if_neg (by simp [hacc])]]
    rw [ih l (ch :: acc) (fun c hc => hfree c (List.mem_cons_of_mem _ hc))
      (by rw [headTerm]; exact hfree ch (List.mem_cons_self _ _))]
    simp

theorem sentAux_true_false (ch : Char) (l : List Char) (h : isWS ch = false) :
    sentAux (ch :: l) [] true = sentAux (ch :: l) [] false := by
  rw [sentAux, if_neg (by simp [h]), sentAux, if_neg (by simp [headTerm])]

theorem sentSplit_wf : ∀ (ss : List (List Char)), (∀ s ∈ ss, WfSent s) → ss ≠ [] →
    sentSplit (List.intercalate [' '] ss) = ss := by
  intro ss
  induction ss with
  | nil =>
    intro _ h
    exact absurd rfl h
  | cons s t ih =>
    intro hwf _
    obtain ⟨bh, bt, p, hs, hp, hhead, hfree⟩ := wfSent_elim s (hwf s (List.mem_cons_self _ _))
    cases t with
    | nil =>
      rw [intercalate_single, hs, sentSplit]
      rw [show ((bh :: bt) ++ [p] : List Char) = (bh :: bt) ++ [p] from rfl]
      rw [sentAux_body (bh :: bt) [p] [] hfree rfl]
      rw [sentAux, if_neg (by simp [term_not_ws p hp]), sentAux]
      simp
    | cons s2 t2 =>
      obtain ⟨bh2, bt2, p2, hs2, hp2, hhead2, hfree2⟩ :=
        wfSent_elim s2 (hwf s2 (List.mem_cons_of_mem _ (List.mem_cons_self _ _)))
      have hX : ∃ Xrest, List.intercalate [' '] (s2 :: t2) = bh2 :: Xrest := by
        cases t2 with
        | nil =>
          refine ⟨bt2 ++ [p2], ?_⟩
          rw [intercalate_single, hs2]
          rfl
        | cons s3 t3 =>
          refine ⟨bt2 ++ [p2] ++ [' '] ++ List.intercalate [' '] (s3 :: t3), ?_⟩
          rw [intercalate_cons₂, hs2]
          simp
      obtain ⟨Xrest, hXr⟩ := hX
      rw [intercalate_cons₂, hs, sentSplit]
      rw [show ((bh :: bt) ++ [p]) ++ [' '] ++ List.intercalate [' '] (s2 :: t2)
          = (bh :: bt) ++ (p :: ' ' :: List.intercalate [' '] (s2 :: t2)) by simp]
      rw [sentAux_body (bh :: bt) _ [] hfree rfl]
      rw [sentAux, if_neg (by simp [term_not_ws p hp])]
      rw [sentAux, if_pos (by simp [headTerm, hp, show isWS ' ' = true from by decide])]
      rw [hXr, sentAux_true_false bh2 Xrest hhead2, ← hXr]
      rw [show sentAux (List.intercalate [' '] (s2 :: t2)) [] false
          = sentSplit (List.intercalate [' '] (s2 :: t2)) from rfl]
      rw [ih (fun x hx => hwf x (List.mem_cons_of_mem _ hx)) (by simp)]
      simp

theorem countNB_all (ss : List (List Char)) (h : ∀ s ∈ ss, (pstrip s).isEmpty = false) :
    countNB ss = ss.length := by
  rw [countNB, List.filter_eq_self.mpr]
  intro a ha
  rw [h a ha]
  rfl

theorem wfSent_nonblank (s : List Char) (h : WfSent s) : (pstrip s).isEmpty = false := by
  obtain ⟨bh, bt, p, hs, _, hhead, _⟩ := wfSent_elim s h
  rw [hs, List.cons_append]
  exact pstrip_head_ne bh (bt ++ [p]) hhead

theorem splitterCount_wf (ss : List (List Char)) (hwf : ∀ s ∈ ss, WfSent s) :
    splitterSentenceCount (List.intercalate [' '] ss) = ss.length := by
  cases hss : ss with
  | nil => rfl
  | cons s t =>
    rw [splitterSentenceCount, sentSplit_wf (s :: t) (by rw [← hss]; exact hss ▸ hwf)
      (by simp)]
    apply countNB_all
    intro x hx
    exact wfSent_nonblank x (hwf x (hss ▸ hx))

/-- Structure of the phrase-match boost (chunking.py lines 206–213): when the
trimmed query is longer than 10 characters and the whole lowered query is not
a substring of the lowered chunk, the score is the base score plus `0.2` once
if any qualifying sub-phrase matches; the bonus does not stack. -/
theorem chunkScore_eq (query chunk : List Char)
    (h1 : 10 < (pstrip query).length)
    (h2 : isSubstr (lowerS query) (lowerS chunk) = false) :
    chunkScore query chunk = baseScore query chunk +
      (if (phraseList (lowerS query)).any (fun p => isSubstr p (lowerS chunk))
        then (1 : ℚ) / 5 else 0) := by
  rw [chunkScore]
  rw [if_pos h1, if_neg (by rw [h2]; simp)]
  by_cases h3 : (phraseList (lowerS query)).any (fun p => isSubstr p (lowerS chunk)) = true
  · rw [if_pos h3, if_pos h3]
  · rw [if_neg h3, if_neg h3]
    simp

/-! ## The claims -/

/-- C1, counterexample: the claim "the chunk sequence returned by
chunk_document (including the overlap post-pass) contains no chunk whose
length exceeds max_chunk_size" is false: with `max_chunk_size = 10`,
`overlap_size = 5`, sentence-preserving mode, the input
`"abcdefgh. ijklmnop."` yields the chunk `"efgh. ijklmnop."` of length 15. -/
theorem claim_C1_counterexample :
    ¬ (∀ ch ∈ chunkDocument ⟨10, 5, true⟩ "abcdefgh. ijklmnop.".toList,
      ch.length ≤ 10) := by
  decide

/-- C1 (amended): every chunk returned by chunk_document has length at most
`max_chunk_size + overlap_size + 1` (the overlap post-pass prepends at most
`overlap_size` characters plus one separating space), and when
`overlap_size = 0` the original bound `max_chunk_size` holds. -/
theorem claim_C1 (c : Chunker) (text ch : List Char)
    (h : ch ∈ chunkDocument c text) :
    ch.length ≤ c.max_chunk_size + c.overlap_size + 1 ∧
      (c.overlap_size = 0 → ch.length ≤ c.max_chunk_size) := by
  rw [chunkDocument] at h
  by_cases h1 : text.length ≤ c.max_chunk_size
  · rw [if_pos h1] at h
    simp at h
    subst h
    exact ⟨by omega, fun _ => h1⟩
  · rw [if_neg h1] at h
    by_cases h2 : c.preserve_sentences = true
    · rw [if_pos h2] at h
      exact ⟨chunkBySentences_bound c text ch h,
        fun hov => chunkBySentences_bound0 c hov text ch h⟩
    · rw [if_neg h2] at h
      have := chunkByCharacters_bound c text ch h
      exact ⟨by omega, fun _ => this⟩

/-- C1, witness for the amended bound at a concrete input. -/
theorem claim_C1_witness :
    "ab. cd.".toList.length ≤ (⟨10, 0, true⟩ : Chunker).max_chunk_size
        + (⟨10, 0, true⟩ : Chunker).overlap_size + 1 ∧
      ((⟨10, 0, true⟩ : Chunker).overlap_size = 0 →
        "ab. cd.".toList.length ≤ (⟨10, 0, true⟩ : Chunker).max_chunk_size) :=
  claim_C1 ⟨10, 0, true⟩ "ab. cd.".toList "ab. cd.".toList (by decide)

/-- C2, counterexample: the claim that the 0.2 bonus stacks once per matching
sub-phrase is false.  For the query `"abcdefg.hijklmn"` (trimmed length 15)
against the chunk `"abcdefg and hijklmn here"`, the whole query is not a
substring, both period-delimited sub-phrases qualify and match (2 of them),
yet the score is base + 0.2, not base + 0.4. -/
theorem claim_C2_counterexample :
    10 < (pstrip "abcdefg.hijklmn".toList).length ∧
      isSubstr (lowerS "abcdefg.hijklmn".toList)
        (lowerS "abcdefg and hijklmn here".toList) = false ∧
      ((phraseList (lowerS "abcdefg.hijklmn".toList)).filter
        (fun p => isSubstr p (lowerS "abcdefg and hijklmn here".toList))).length = 2 ∧
      chunkScore "abcdefg.hijklmn".toList "abcdefg and hijklmn here".toList ≠
        baseScore "abcdefg.hijklmn".toList "abcdefg and hijklmn here".toList
          + ((1 : ℚ) / 5) * 2 := by
  refine ⟨by decide, by decide, by decide, ?_⟩
  rw [chunkScore_eq _ _ (by decide) (by decide), if_pos (by decide)]
  intro hcon
  have h5 : (1 : ℚ) / 5 = 1 / 5 * 2 := add_left_cancel hcon
  norm_num at h5

/-- C2 (amended): when the trimmed query is longer than 10 characters and the
whole lower-cased query is not a substring of the lower-cased chunk, the score
is the base score plus a single 0.2 bonus if at least one period-delimited
sub-phrase of the query longer than 5 trimmed characters occurs in the chunk
(`any`, chunking.py line 212); the bonus does not stack per sub-phrase. -/
theorem claim_C2 (query chunk : List Char)
    (h1 : 10 < (pstrip query).length)
    (h2 : isSubstr (lowerS query) (lowerS chunk) = false) :
    chunkScore query chunk = baseScore query chunk +
      (if (phraseList (lowerS query)).any (fun p => isSubstr p (lowerS chunk))
        then (1 : ℚ) / 5 else 0) :=
  chunkScore_eq query chunk h1 h2

/-- C2, witness at a concrete query/chunk pair. -/
theorem claim_C2_witness :
    chunkScore "abcdefg.hijklmn".toList "abcdefg and hijklmn here".toList
      = baseScore "abcdefg.hijklmn".toList "abcdefg and hijklmn here".toList +
        (if (phraseList (lowerS "abcdefg.hijklmn".toList)).any
          (fun p => isSubstr p (lowerS "abcdefg and hijklmn here".toList))
          then (1 : ℚ) / 5 else 0) :=
  claim_C2 _ _ (by decide) (by decide)

/-- C3: for every text, query and maxChunks, find_relevant_chunks returns a
subsequence (in original document order) of the chunk sequence of the text;
its length is at most maxChunks; and it equals the full chunk sequence when
the number of chunks is at most maxChunks. -/
theorem claim_C3 (c : Chunker) (text query : List Char) (k : Nat) :
    (findRelevantChunks c text query k).Sublist (chunkDocument c text) ∧
      (findRelevantChunks c text query k).length ≤ k ∧
      ((chunkDocument c text).length ≤ k →
        findRelevantChunks c text query k = chunkDocument c text) :=
  findRelevantChunks_spec c text query k

/-- C3, witness: at a two-chunk document with maxChunks 3 the full sequence is
returned. -/
theorem claim_C3_witness :
    findRelevantChunks ⟨10, 0, true⟩ "ab. cd.".toList "ab".toList 3
      = chunkDocument ⟨10, 0, true⟩ "ab. cd.".toList :=
  (claim_C3 ⟨10, 0, true⟩ "ab. cd.".toList "ab".toList 3).2.2 (by decide)

/-- C4, counterexample: the metadata sentence counter and the section-4.1
splitter disagree on `"a.b"`: the metadata rule splits at the period although
it is not followed by whitespace (2 units), while the splitter sees a single
sentence (1 unit). -/
theorem claim_C4_counterexample :
    ¬ (metaSentenceCount "a.b".toList = splitterSentenceCount "a.b".toList) := by
  decide

/-- C4 (amended): the metadata counter splits at every '.', '!', '?'
regardless of what follows, so the two counts differ in general; they do agree
on well-formed chunks: space-joined sentences whose bodies are nonempty, start
with a non-whitespace character, contain no terminal punctuation, and end in a
single terminal mark — on such a chunk both counters return the number of
sentences. -/
theorem claim_C4 (ss : List (List Char)) (h : ∀ s ∈ ss, WfSent s) :
    metaSentenceCount (List.intercalate [' '] ss) = ss.length ∧
      splitterSentenceCount (List.intercalate [' '] ss) = ss.length :=
  ⟨metaCount_wf ss h, splitterCount_wf ss h⟩

/-- C4, witness on a concrete well-formed two-sentence chunk. -/
theorem claim_C4_witness :
    metaSentenceCount (List.intercalate [' '] ["Hi.".toList, "Go!".toList])
        = (["Hi.".toList, "Go!".toList] : List (List Char)).length ∧
      splitterSentenceCount (List.intercalate [' '] ["Hi.".toList, "Go!".toList])
        = (["Hi.".toList, "Go!".toList] : List (List Char)).length :=
  claim_C4 ["Hi.".toList, "Go!".toList] (by decide)

/-- C5: with overlap_size = 0 (and a positive max_chunk_size, the
configuration §7 of the spec requires), recombining the chunks of
chunk_document with the empty separator reproduces the original text up to
whitespace: the non-whitespace characters are preserved exactly and in
order. -/
theorem claim_C5 (c : Chunker) (text : List Char) (hm : 1 ≤ c.max_chunk_size)
    (hov : c.overlap_size = 0) :
    filterNW (recombineChunks (chunkDocument c text) []) = filterNW text := by
  rw [recombine_filterNW, chunkDocument]
  by_cases h1 : text.length ≤ c.max_chunk_size
  · rw [if_pos h1]
    simp
  · rw [if_neg h1]
    by_cases h2 : c.preserve_sentences = true
    · rw [if_pos h2]
      exact chunkBySentences_flatten c hm hov text
    · rw [if_neg h2]
      exact chunkByCharacters_flatten c hm hov text

/-- C5, witness: round trip at a concrete three-sentence document. -/
theorem claim_C5_witness :
    filterNW (recombineChunks (chunkDocument ⟨5, 0, true⟩ "ab. cd. ef.".toList) [])
      = filterNW "ab. cd. ef.".toList :=
  claim_C5 ⟨5, 0, true⟩ "ab. cd. ef.".toList (by decide) rfl

/-- C6: the overlap post-pass preserves the number of chunks, leaves the first
chunk unchanged, and is purely additive: every later chunk is an overlap
prefix — a suffix of the previous unoverlapped chunk, at most overlap_size
characters, either the whole previous chunk or cut back past its last space —
followed by a single space and the unchanged original chunk. -/
theorem claim_C6 (c : Chunker) (chunks : List (List Char)) (h : 0 < c.overlap_size) :
    (addOverlap c chunks).length = chunks.length ∧
      (addOverlap c chunks).head? = chunks.head? ∧
      ∀ i prev cur, chunks.get? i = some prev → chunks.get? (i + 1) = some cur →
        ∃ ov, (addOverlap c chunks).get? (i + 1) = some (ov ++ ' ' :: cur) ∧
          (∃ pre, pre ++ ov = prev) ∧ ov.length ≤ c.overlap_size ∧
          (ov = prev ∨ ' ' ∉ ov) := by
  refine ⟨addOverlap_length c chunks, ?_, ?_⟩
  · unfold addOverlap
    split
    · rfl
    next hg =>
      cases chunks with
      | nil => exact absurd (Or.inl (by simp)) hg
      | cons first rest => rfl
  · intro i prev cur h1 h2
    unfold addOverlap
    split
    next hg =>
      rcases hg with hg | hg
      · exfalso
        have hlt := (List.get?_eq_some.mp h2).1
        omega
      · omega
    next hg =>
      cases chunks with
      | nil => exact absurd h2 (by simp)
      | cons first rest =>
        refine ⟨overlapOf c prev, ?_, overlapOf_suffix c prev,
          overlapOf_length c prev, overlapOf_space c prev⟩
        rw [List.get?_cons_succ]
        rw [List.get?_cons_succ] at h2
        exact addOverlapAux_get c rest first i prev cur h1 h2

/-- C6, witness at a concrete chunk pair with overlap 5. -/
theorem claim_C6_witness :
    ∃ ov, (addOverlap ⟨10, 5, true⟩
        ["abcdefgh.".toList, "ijklmnop.".toList]).get? 1
        = some (ov ++ ' ' :: "ijklmnop.".toList) ∧
      (∃ pre, pre ++ ov = "abcdefgh.".toList) ∧
      ov.length ≤ (⟨10, 5, true⟩ : Chunker).overlap_size ∧
      (ov = "abcdefgh.".toList ∨ ' ' ∉ ov) :=
  (claim_C6 ⟨10, 5, true⟩ ["abcdefgh.".toList, "ijklmnop.".toList]
    (by decide)).2.2 0 "abcdefgh.".toList "ijklmnop.".toList rfl rfl

/-- C7: a query whose every whitespace-split lower-cased token is a stop word
or has length at most 2 makes the keyword retriever return the empty list (no
database query is issued and no error is raised; the function is total). -/
theorem claim_C7 {α : Type} (dbSearch : List (List Char) → List α)
    (query : List Char)
    (h : ∀ w ∈ splitWs (lowerS query), w ∈ stopWords ∨ w.length ≤ 2) :
    getRelevantConstitutionalArticles dbSearch query = [] := by
  rw [getRelevantConstitutionalArticles, if_pos]
  rw [List.isEmpty_iff, extractKeywords, List.filter_eq_nil_iff]
  intro w hw
  simp only [decide_eq_true_eq, not_and, not_lt]
  intro hnot
  rcases h w hw with hmem | hlen
  · exact absurd hmem hnot
  · exact hlen

/-- C7, witness: the all-stop-word query "what is the". -/
theorem claim_C7_witness :
    getRelevantConstitutionalArticles (fun _ => ([] : List Nat))
      "what is the".toList = [] :=
  claim_C7 (fun _ => ([] : List Nat)) "what is the".toList (by decide)

/-- C8: the character-fallback loop terminates for every finite text and every
overlap_size: `text.length - start` iterations always suffice, because the
start offset advances to `max (start + 1) (e - overlap_size)`, which strictly
exceeds the previous start.  With fuel at least `text.length - start` the
fueled loop never runs out. -/
theorem claim_C8 (maxsz ov : Nat) (text : List Char) (fuel start : Nat)
    (h : text.length ≤ start + fuel) :
    (charAux maxsz ov text fuel start).isSome = true := by
  obtain ⟨r, hr⟩ := charAux_total maxsz ov text fuel start h
  rw [hr]
  rfl

/-- C8, witness: an overlap_size exceeding max_chunk_size - 1 still
terminates. -/
theorem claim_C8_witness : (charAux 3 5 "abcdefgh".toList 8 0).isSome = true :=
  claim_C8 3 5 "abcdefgh".toList 8 0 (by decide)

/-- C9: chunk_for_summarization never modifies overlap_size or
preserve_sentences; whenever the call completes, the temporary adjustment of
max_chunk_size is restored by the finally block, and when target_chunks = 0
raises ZeroDivisionError before the adjustment, the state is also
unchanged. -/
theorem claim_C9 (c : Chunker) (text : List Char) (target fuel : Nat) :
    (chunkForSummarization c text target fuel).2.overlap_size = c.overlap_size ∧
      (chunkForSummarization c text target fuel).2.preserve_sentences
        = c.preserve_sentences ∧
      ((chunkForSummarization c text target fuel).1.isSome = true →
        (chunkForSummarization c text target fuel).2.max_chunk_size
          = c.max_chunk_size) ∧
      (target = 0 → (chunkForSummarization c text target fuel).2 = c) := by
  rw [chunkForSummarization]
  by_cases h1 : text.length ≤ c.max_chunk_size
  · rw [if_pos h1]
    exact ⟨rfl, rfl, fun _ => rfl, fun _ => rfl⟩
  · rw [if_neg h1]
    by_cases h2 : target = 0
    · rw [if_pos h2]
      exact ⟨rfl, rfl, fun hcon => absurd hcon (by simp), fun _ => rfl⟩
    · rw [if_neg h2]
      cases hml : mergeLoop
          (max 1000 (min c.max_chunk_size (text.length / target))) target fuel
          (chunkDocument
            ⟨max 1000 (min c.max_chunk_size (text.length / target)),
              c.overlap_size, c.preserve_sentences⟩ text) with
      | some r =>
        exact ⟨rfl, rfl, fun _ => rfl, fun hcon => absurd hcon h2⟩
      | none =>
        exact ⟨rfl, rfl, fun hcon => absurd hcon (by simp), fun hcon => absurd hcon h2⟩

/-- C9, witness at a concrete completing call. -/
theorem claim_C9_witness :
    (chunkForSummarization ⟨3000, 200, true⟩ "short".toList 5 0).2.max_chunk_size
      = (⟨3000, 200, true⟩ : Chunker).max_chunk_size :=
  (claim_C9 ⟨3000, 200, true⟩ "short".toList 5 0).2.2.1 (by decide)

/-- C10, counterexample: the claim "chunk_document always returns a non-empty
list" is false: an all-whitespace text longer than max_chunk_size yields the
empty list (every sentence strips to blank and nothing is emitted). -/
theorem claim_C10_counterexample :
    chunkDocument ⟨3, 0, true⟩ "    ".toList = [] := by
  decide

/-- C10 (amended): chunk_document returns `[""]` on the empty string (the fast
path may emit an empty chunk); it returns a non-empty list whenever
max_chunk_size ≥ 1 and the text contains a non-whitespace character (but not,
as the claim states, for every text: see the counterexample); and the
character-fallback path never emits empty chunks. -/
theorem claim_C10 (c : Chunker) (text : List Char) :
    (text = [] → chunkDocument c text = [[]]) ∧
      (1 ≤ c.max_chunk_size → filterNW text ≠ [] → chunkDocument c text ≠ []) ∧
      (∀ ch ∈ chunkByCharacters c text, ch ≠ []) := by
  refine ⟨?_, ?_, ?_⟩
  · intro h
    subst h
    rw [chunkDocument, if_pos (by simp)]
  · intro hm hnw
    rw [chunkDocument]
    by_cases h1 : text.length ≤ c.max_chunk_size
    · rw [if_pos h1]
      simp
    · rw [if_neg h1]
      by_cases h2 : c.preserve_sentences = true
      · rw [if_pos h2]
        exact chunkBySentences_ne c hm text hnw
      · rw [if_neg h2]
        exact chunkByCharacters_ne_nil c hm text hnw
  · intro ch hch hcon
    subst hcon
    exact chunkByCharacters_elems c text [] hch rfl

/-- C10, witness: the empty string gives `[""]`, and a non-blank text gives a
non-empty chunk list. -/
theorem claim_C10_witness :
    chunkDocument ⟨3, 0, true⟩ ("" : String).toList = [[]] ∧
      chunkDocument ⟨3, 0, true⟩ "abcde".toList ≠ [] :=
  ⟨(claim_C10 ⟨3, 0, true⟩ ("" : String).toList).1 rfl,
    (claim_C10 ⟨3, 0, true⟩ "abcde".toList).2.1 (by decide) (by decide)⟩

end DemystifyDocs
